import Mathlib

/-!
Verification of the TinyShell repository (Phases 1-3) against its
natural-language specification.  The development shallowly embeds the
C sources:

* `TinyShell.P3` embeds `Phase 3/tinyshell.c` (job table, signal
  handler, `fg`/`bg`/`exit` builtins, the `eval` launch protocol).
* `TinyShell.P2` embeds the phase-2 shell (pipeline parser,
  `execute_pipeline` with pipes and output redirection).
* `TinyShell.P1` embeds the `exit` handling of `Phase 1/tinyshell.c`.

Machine integers (`pid_t`, `int`) are modelled as `Int`; C arrays of
fixed size are modelled as Lean lists of that length; array scans that
stop at the first hit are modelled by structurally recursive functions
over those lists.
-/

namespace TinyShell

/-! ## C `atoi`, shared by Phase 1 (`exit [code]`) and Phase 3 (`do_bgfg`).

Faithful model of C `atoi`: skip leading whitespace, read an optional
sign, then accumulate decimal digits until the first non-digit; a string
with no digits yields 0. -/

def isSpaceC (c : Char) : Bool :=
  c = ' ' || c = '\t' || c = '\n' || c = '\x0b' || c = '\x0c' || c = '\r'

def isDigitC (c : Char) : Bool :=
  '0' ≤ c && c ≤ '9'

def digitVal (c : Char) : Nat := c.toNat - 48

def digitsAcc : List Char → Nat → Nat
  | [], acc => acc
  | c :: cs, acc => if isDigitC c then digitsAcc cs (acc * 10 + digitVal c) else acc

def atoiChars : List Char → Int
  | [] => 0
  | c :: cs =>
    if isSpaceC c then atoiChars cs
    else if c = '-' then -(digitsAcc cs 0 : Int)
    else if c = '+' then (digitsAcc cs 0 : Int)
    else if isDigitC c then (digitsAcc (c :: cs) 0 : Int)
    else 0

def atoi (s : String) : Int := atoiChars s.data

/-! Decimal printing of integers, used to state "`exit N` for an integer
argument N" with the argument written in ordinary decimal notation.
`natToDecAux` is fuel-indexed so that it is structurally recursive
(fuel `n` suffices because `n / 10 < n` for `0 < n`). -/

def digitToChar : Nat → Char
  | 0 => '0' | 1 => '1' | 2 => '2' | 3 => '3' | 4 => '4'
  | 5 => '5' | 6 => '6' | 7 => '7' | 8 => '8' | 9 => '9'
  | _ => '0'

def natToDecAux : Nat → Nat → List Char
  | 0, _ => []
  | _ + 1, 0 => []
  | fuel + 1, n + 1 =>
    natToDecAux fuel ((n + 1) / 10) ++ [digitToChar ((n + 1) % 10)]

def natToDecChars (n : Nat) : List Char := natToDecAux n n

def intToDec (n : Int) : String :=
  if n < 0 then String.mk ('-' :: natToDecChars n.natAbs)
  else if n = 0 then "0"
  else String.mk (natToDecChars n.toNat)

namespace P3

/-! ## Phase 3 job control structures (`Phase 3/tinyshell.c`). -/

def MAXJOBS : Nat := 16

inductive job_state
  | UNDEF | FG | BG | ST
deriving DecidableEq

structure job_t where
  pid : Int
  pgid : Int
  jid : Int
  state : job_state
  cmdline : String
deriving DecidableEq

/-- `clearjob` writes the all-zero entry (`state = UNDEF`, empty command). -/
def clearjob : job_t := ⟨0, 0, 0, job_state.UNDEF, ""⟩

structure JobsState where
  jobs : List job_t
  nextjid : Int
deriving DecidableEq

/-- `initjobs`: all `MAXJOBS` slots cleared, `nextjid = 1`. -/
def initState : JobsState := ⟨List.replicate MAXJOBS clearjob, 1⟩

/-- The C scans `jobs[0..MAXJOBS-1]` and mutates the first slot satisfying
a predicate; `updateFirst` is that scan on the list of slots. -/
def updateFirst (p : job_t → Bool) (f : job_t → job_t) : List job_t → List job_t
  | [] => []
  | x :: t => if p x then f x :: t else x :: updateFirst p f t

/-- `addjob`'s scan: place the new entry in the first slot with `pid == 0`;
`none` when every slot is taken ("too many jobs"). -/
def addjobAux (pid pgid jid : Int) (st : job_state) (cmd : String) :
    List job_t → Option (List job_t)
  | [] => none
  | x :: t =>
    if x.pid == 0 then some (⟨pid, pgid, jid, st, cmd⟩ :: t)
    else (addjobAux pid pgid jid st cmd t).map (x :: ·)

/-- The `nextjid` update in `addjob`: `nextjid++` followed by
`if (nextjid > MAXJOBS) nextjid = 1`. -/
def wrapjid (n : Int) : Int := if (MAXJOBS : Int) < n then 1 else n

def addjob (s : JobsState) (pid pgid : Int) (st : job_state) (cmd : String) : JobsState :=
  match addjobAux pid pgid s.nextjid st cmd s.jobs with
  | none => s
  | some l => { jobs := l, nextjid := wrapjid (s.nextjid + 1) }

/-- `deletejob`: clear the first slot whose `pid` matches (the C function
returns after the first hit; no hit leaves the table unchanged). -/
def deletejob (s : JobsState) (pid : Int) : JobsState :=
  { s with jobs := updateFirst (fun j => j.pid == pid) (fun _ => clearjob) s.jobs }

/-- `getjob_jid`: pointer to the first slot whose `jid` field matches
(note: it does not require the slot to be live). -/
def getjob_jid (s : JobsState) (jid : Int) : Option job_t :=
  s.jobs.find? (fun j => j.jid == jid)

/-- `getjob_pid`: pointer to the first slot whose `pid` field matches. -/
def getjob_pid (s : JobsState) (pid : Int) : Option job_t :=
  s.jobs.find? (fun j => j.pid == pid)

/-- A slot is live when its `pid` field is nonzero. -/
def isLive (j : job_t) : Bool := j.pid != 0

/-- Job ids of the live entries (slots with `pid != 0`), in slot order. -/
def liveJids (s : JobsState) : List Int :=
  (s.jobs.filter isLive).map job_t.jid

/-! ### Operation sequences on the job table (for claim C2). -/

inductive Op
  | add (pid pgid : Int) (st : job_state) (cmd : String)
  | del (pid : Int)
deriving DecidableEq

def applyOp (s : JobsState) : Op → JobsState
  | Op.add pid pgid st cmd => addjob s pid pgid st cmd
  | Op.del pid => deletejob s pid

def runOps (ops : List Op) : JobsState := ops.foldl applyOp initState

def countAdds (ops : List Op) : Nat :=
  ops.countP (fun o => match o with | Op.add _ _ _ _ => true | Op.del _ => false)

/-- An `addjob` call coming from `eval` always carries the nonzero pid
returned by `fork`. -/
def opValid : Op → Prop
  | Op.add pid _ _ _ => pid ≠ 0
  | Op.del _ => True

instance : DecidablePred opValid := fun o => by
  cases o with
  | add pid pgid st cmd => exact inferInstanceAs (Decidable (pid ≠ 0))
  | del pid => exact inferInstanceAs (Decidable True)

/-- Invariant of the job table after `a` successful `addjob` calls, valid
as long as the id counter has not wrapped: the table keeps its fixed
capacity, `nextjid` is the count of adds plus one, and the live job ids
are distinct values in `1..a`. -/
def Inv (s : JobsState) (a : Nat) : Prop :=
  s.jobs.length = MAXJOBS
  ∧ (a < MAXJOBS → s.nextjid = (a : Int) + 1)
  ∧ (∀ x ∈ liveJids s, 1 ≤ x ∧ x ≤ (a : Int))
  ∧ (liveJids s).Nodup

/-- Concrete run exhibiting a job-id collision: fill the table (ids 1..16,
counter wraps to 1), free one slot, add again — the new job gets id 1
while the job with id 1 is still live. -/
def cexOps : List Op :=
  ((List.range MAXJOBS).map (fun i => Op.add ((i : Int) + 1) ((i : Int) + 1) job_state.BG ""))
    ++ [Op.del 2, Op.add 100 100 job_state.BG ""]

/-! ### The `eval` launch protocol (claim C1).

`eval`'s parent-side effect sequence for a non-builtin command, read off
the source: block SIGCHLD, fork, setpgid, addjob, unblock SIGCHLD, then
either wait in the foreground (tcsetpgrp / waitfg / tcsetpgrp) or print
the background banner. -/

inductive EvalEv
  | blockSigchld | forkEv | setpgidEv | addjobEv | unblockSigchld
  | tcsetChildEv | waitfgEv | tcsetShellEv | printBgEv
deriving DecidableEq

def evalParentTrace (bg : Bool) : List EvalEv :=
  [EvalEv.blockSigchld, EvalEv.forkEv, EvalEv.setpgidEv, EvalEv.addjobEv,
   EvalEv.unblockSigchld]
    ++ (if bg then [EvalEv.printBgEv]
        else [EvalEv.tcsetChildEv, EvalEv.waitfgEv, EvalEv.tcsetShellEv])

/-- After the first `k` events of the trace, is SIGCHLD blocked in the
shell process? (More blocks than unblocks so far.) -/
def blockedAfter (t : List EvalEv) (k : Nat) : Bool :=
  decide ((t.take k).countP (fun e => decide (e = EvalEv.unblockSigchld))
    < (t.take k).countP (fun e => decide (e = EvalEv.blockSigchld)))

/-- The block-fork-register-unblock protocol, checked over a trace:
the block precedes the fork, the registration precedes the unblock, and
at every instant at which SIGCHLD is deliverable either the fork has not
happened yet or the job is already registered. -/
def protocolOk (t : List EvalEv) : Bool :=
  decide (t.findIdx (fun e => decide (e = EvalEv.blockSigchld))
      < t.findIdx (fun e => decide (e = EvalEv.forkEv)))
  && decide (t.findIdx (fun e => decide (e = EvalEv.addjobEv))
      < t.findIdx (fun e => decide (e = EvalEv.unblockSigchld)))
  && ((List.range (t.length + 1)).all (fun k =>
        blockedAfter t k
        || decide (k ≤ t.findIdx (fun e => decide (e = EvalEv.forkEv)))
        || decide (t.findIdx (fun e => decide (e = EvalEv.addjobEv)) < k)))

/-! ### Builtins and the signal handler (`Phase 3/tinyshell.c`). -/

inductive Signal
  | sigcont | sigint | sigtstp | sigchld
deriving DecidableEq

/-- Observable effects of `do_bgfg`: error lines on stderr, `kill` calls
(with their integer target: negative means "whole process group"),
terminal-ownership transfers, the blocking foreground wait, and stdout
lines. -/
inductive Act
  | errLine (m : String)
  | kill (target : Int) (sg : Signal)
  | tcsetpgrp (pg : Int)
  | waitfgFor (pid : Int)
  | outLine (m : String)
deriving DecidableEq

def bgfgUsageMsg (fg : Bool) : String :=
  (if fg then "fg" else "bg") ++ " command requires %jobid"

def noSuchJobMsg (arg : String) : String := arg ++ ": No such job"

def bgBannerMsg (jid : Int) (cmdline : String) : String :=
  "[" ++ toString jid ++ "]+ " ++ cmdline ++ "&"

/-- `do_bgfg`: validate the `%jobid` argument, look the job up by id,
send SIGCONT to the negative process-group id, set the new state, and
either wait in the foreground or print the background banner.  Returns
the updated table and the list of performed effects, in order. -/
def do_bgfg (shellPgid : Int) (s : JobsState) (argv : List String) (fg : Bool) :
    JobsState × List Act :=
  match argv.get? 1 with
  | none => (s, [Act.errLine (bgfgUsageMsg fg)])
  | some a1 =>
    match a1.data with
    | [] => (s, [Act.errLine (bgfgUsageMsg fg)])
    | c :: rest =>
      if c = '%' then
        let jid := atoi (String.mk rest)
        match s.jobs.find? (fun j => j.jid == jid) with
        | none => (s, [Act.errLine (noSuchJobMsg a1)])
        | some j =>
          let newSt := if fg then job_state.FG else job_state.BG
          let s' := { s with
            jobs := updateFirst (fun x => x.jid == jid) (fun x => { x with state := newSt }) s.jobs }
          if fg then
            (s', [Act.kill (-j.pgid) Signal.sigcont, Act.tcsetpgrp j.pgid,
                  Act.waitfgFor j.pid, Act.tcsetpgrp shellPgid])
          else
            (s', [Act.kill (-j.pgid) Signal.sigcont,
                  Act.outLine (bgBannerMsg j.jid j.cmdline)])
      else (s, [Act.errLine (bgfgUsageMsg fg)])

/-- The `exit`/`quit` arm of phase 3's `builtin_cmd`: `exit(0)` is called
unconditionally, whatever arguments follow.  `some code` means the
hosting process terminates with that code. -/
def builtin_cmd_exitCode (argv : List String) : Option Int :=
  match argv with
  | [] => none
  | a0 :: _ => if a0 = "exit" || a0 = "quit" then some 0 else none

/-- The `waitpid` statuses the SIGCHLD handler distinguishes. -/
inductive WStatus
  | exited (code : Nat)
  | signaled (sg : Nat)
  | stopped (sg : Nat)
  | continued
deriving DecidableEq

def stoppedMsg (jid : Int) (cmdline : String) : String :=
  "\n[" ++ toString jid ++ "]+ Stopped    " ++ cmdline

def termMsg (jid pid : Int) (sg : Nat) : String :=
  "\nJob [" ++ toString jid ++ "] (" ++ toString pid ++ ") terminated by signal "
    ++ toString sg ++ "\n"

/-- One drained notification of `sigchld_handler`: locate the job by pid
(no match: do nothing), then stopped sets state `ST` and prints the
stopped line, continued does nothing, signaled prints the termination
line and deletes, exited deletes. -/
def handle1 (s : JobsState) (pid : Int) (w : WStatus) : JobsState × List String :=
  match s.jobs.find? (fun j => j.pid == pid) with
  | none => (s, [])
  | some j =>
    match w with
    | WStatus.stopped _ =>
      let jobsST := updateFirst (fun x => x.pid == pid)
        (fun x => { x with state := job_state.ST }) s.jobs
      ({ s with jobs := jobsST }, [stoppedMsg j.jid j.cmdline])
    | WStatus.continued => (s, [])
    | WStatus.signaled sg => (deletejob s pid, [termMsg j.jid pid sg])
    | WStatus.exited _ => (deletejob s pid, [])

/-- The handler's `while (waitpid(...) > 0)` loop: drain all pending
notifications in order, accumulating the printed lines. -/
def sigchld_handler (s : JobsState) (pending : List (Int × WStatus)) :
    JobsState × List String :=
  pending.foldl (fun acc n =>
    let r := handle1 acc.1 n.1 n.2
    (r.1, acc.2 ++ r.2)) (s, [])

/-! Sample concrete states for the witnesses. -/

def sampleJob : job_t := ⟨7, 7, 3, job_state.BG, "sleep 100 &"⟩

def sampleS : JobsState :=
  ⟨sampleJob :: List.replicate (MAXJOBS - 1) clearjob, 4⟩

def witnessOps : List Op :=
  [Op.add 5 5 job_state.BG "", Op.del 5, Op.add 6 6 job_state.FG ""]

end P3

namespace P1

/-! ## Phase 1 `exit` handling (`Phase 1/tinyshell.c`, `main`).

If the first token is `exit`, the shell returns `atoi(argv[1])` when a
second token exists, otherwise 0; `some code` is that returned exit
code, `none` means the line is not an `exit` command. -/

def exitResult (tokens : List String) : Option Int :=
  match tokens with
  | [] => none
  | t0 :: rest =>
    if t0 = "exit" then
      some (match rest with | [] => 0 | a1 :: _ => atoi a1)
    else none

end P1

namespace P2

/-! ## Phase 2 pipeline parser and launcher (`src/unnamed/part_000`). -/

def MAX_CMDS : Nat := 32
def MAX_ARGS : Nat := 256

/-- A parsed pipeline: the argument vectors of the stages in order, the
optional output redirection target, and its mode (`append = true` for
`>>`). -/
structure Pipeline where
  cmds : List (List String)
  outfile : Option String
  append : Bool
deriving DecidableEq

/-- The scanning loop of `parse_pipeline`, with the mutable C state made
explicit: `done` holds the argument vectors of the completed stages,
`cur` the current stage's arguments, `redir` the recorded redirection
(target and append mode).  `none` is the `-1` error return.  Checks, in
source order: a `|` with an empty current stage errors; a `|` when
`n_cmds` (`done.length + 1`) has reached `MAX_CMDS` errors; a `>`/`>>`
that is the last token errors; a second redirection errors (the token
after a redirection operator is always consumed as its filename); a
regular token with `cur` at `MAX_ARGS - 1` arguments errors; after the
loop an empty final stage errors. -/
def parseLoop : List String → List (List String) → List String → Option (String × Bool) →
    Option Pipeline
  | [], done, cur, redir =>
    if cur.isEmpty then none
    else some ⟨done ++ [cur], redir.map Prod.fst, (redir.map Prod.snd).getD false⟩
  | tok :: rest, done, cur, redir =>
    if tok = "|" then
      if cur.isEmpty then none
      else if MAX_CMDS ≤ done.length + 1 then none
      else parseLoop rest (done ++ [cur]) [] redir
    else if tok = ">" || tok = ">>" then
      match rest with
      | [] => none
      | fname :: rest2 =>
        if redir.isSome then none
        else parseLoop rest2 done cur (some (fname, tok = ">>"))
    else
      if MAX_ARGS - 1 ≤ cur.length then none
      else parseLoop rest done (cur ++ [tok]) redir
termination_by structural tokens _ _ _ => tokens

/-- `parse_pipeline`: the `argc == 0` guard, then the scanning loop from
the empty state. -/
def parse_pipeline (tokens : List String) : Option Pipeline :=
  if tokens.isEmpty then none else parseLoop tokens [] [] none

/-- `main` runs `execute_pipeline` (one `fork` per stage) only when
parsing succeeded; on a parse error it `continue`s, so no stage process
is created. -/
def stagesLaunched (tokens : List String) : Nat :=
  match parse_pipeline tokens with
  | none => 0
  | some pl => pl.cmds.length

/-! ### Specification-side abstraction of the token scan (for the
amended claim C5).  `scanLoop` computes, independently of the parser's
control flow, the argument count of every stage (delimited by `|` tokens
in operator position), the number of redirection operators processed in
operator position, and whether a redirection operator ended the input
with no filename. -/

structure ScanOut where
  stages : List Nat
  redirOps : Nat
  dangling : Bool
deriving DecidableEq

def scanLoop : List String → Nat → ScanOut
  | [], cur => ⟨[cur], 0, false⟩
  | tok :: rest, cur =>
    if tok = "|" then
      let o := scanLoop rest 0
      ⟨cur :: o.stages, o.redirOps, o.dangling⟩
    else if tok = ">" || tok = ">>" then
      match rest with
      | [] => ⟨[cur], 0, true⟩
      | _ :: rest2 =>
        let o := scanLoop rest2 cur
        ⟨o.stages, o.redirOps + 1, o.dangling⟩
    else
      scanLoop rest (cur + 1)
termination_by structural tokens _ => tokens

/-- The amended failure condition for claim C5: some stage has no
argument words, or a redirection operator ends the input, or more than
one redirection operator is processed, or the stages exceed `MAX_CMDS`,
or some stage's argument count exceeds `MAX_ARGS - 1`. -/
def amendedFails (tokens : List String) : Bool :=
  let o := scanLoop tokens 0
  (o.stages.any (fun c => c == 0)) || o.dangling
    || decide (1 < o.redirOps) || decide (MAX_CMDS < o.stages.length)
    || (o.stages.any (fun c => decide (MAX_ARGS - 1 < c)))

/-- Generalisation of the amended failure condition to a mid-scan parser
state: `doneLen` completed stages and `hasRedir` indicating an already
recorded redirection. -/
def scanFailAux (o : ScanOut) (doneLen : Nat) (hasRedir : Bool) : Prop :=
  (o.stages.any (fun c => c == 0)) = true
  ∨ o.dangling = true
  ∨ (if hasRedir then 1 ≤ o.redirOps else 2 ≤ o.redirOps)
  ∨ MAX_CMDS < doneLen + o.stages.length
  ∨ (o.stages.any (fun c => decide (MAX_ARGS - 1 < c))) = true

/-- Claim C5's failure condition, read literally from its wording: an
empty stage adjacent to `|` (a `|`-delimited chunk of the token sequence
is empty), a redirection operator as the last token, more than one
redirection operator appearing in the token sequence, more than
`MAX_CMDS` stages, or a stage with more than `MAX_ARGS - 1` words. -/
def claimC5Cond (tokens : List String) : Prop :=
  ((tokens.splitOn "|").any (fun s => s.isEmpty)) = true
  ∨ tokens.getLast? = some ">" ∨ tokens.getLast? = some ">>"
  ∨ 1 < tokens.countP (fun t => t == ">" || t == ">>")
  ∨ MAX_CMDS < (tokens.splitOn "|").length
  ∨ ((tokens.splitOn "|").any (fun s => decide (MAX_ARGS - 1 < s.length))) = true

instance (tokens : List String) : Decidable (claimC5Cond tokens) := by
  unfold claimC5Cond
  infer_instance

/-! ### The launcher (`execute_pipeline`), claims C7, C8, C10. -/

/-- Parent-side events of `execute_pipeline` for an `n`-stage pipeline on
the success path: `pipe()` for each of the `n - 1` channels, `fork` per
stage, then the parent's close loop over both ends of every channel
(`false` = read end, `true` = write end). -/
inductive PEv
  | pipeCreate (i : Nat)
  | forkStage (i : Nat)
  | parentClose (i : Nat) (wr : Bool)
deriving DecidableEq

def parentTrace (n : Nat) : List PEv :=
  ((List.range (n - 1)).map PEv.pipeCreate)
    ++ ((List.range n).map PEv.forkStage)
    ++ ((List.range (n - 1)).flatMap (fun i => [PEv.parentClose i false, PEv.parentClose i true]))

def isPipeCreate : PEv → Bool
  | PEv.pipeCreate _ => true
  | _ => false

def isForkEv : PEv → Bool
  | PEv.forkStage _ => true
  | _ => false

def isCloseEv : PEv → Bool
  | PEv.parentClose _ _ => true
  | _ => false

def pipesCreated (t : List PEv) : Nat := t.countP isPipeCreate

/-- Channel descriptors the launching process acquires along a trace. -/
def createdEnds (t : List PEv) : List (Nat × Bool) :=
  t.flatMap (fun e => match e with
    | PEv.pipeCreate i => [(i, false), (i, true)]
    | _ => [])

/-- Channel descriptors the launching process closes along a trace. -/
def closedEnds (t : List PEv) : List (Nat × Bool) :=
  t.filterMap (fun e => match e with
    | PEv.parentClose i b => some (i, b)
    | _ => none)

/-- The open flags the child computes for an output redirection:
`O_WRONLY | O_CREAT`, plus `O_APPEND` for `>>` and `O_TRUNC` for `>`. -/
structure OpenFlags where
  wronly : Bool
  creat : Bool
  append : Bool
  trunc : Bool
deriving DecidableEq

def redirFlags (append : Bool) : OpenFlags :=
  ⟨true, true, append, !append⟩

/-- POSIX semantics of `open` for this flag set, as the file content
(byte list) the subsequent writes start from: a missing file is created
empty (`O_CREAT`), `O_TRUNC` discards existing content, otherwise
(`O_APPEND`) the existing content is kept and writes go to the end. -/
def openedContent : Option (List Char) → OpenFlags → List Char
  | none, _ => []
  | some c, fl => if fl.trunc then [] else c

/-- File content after opening with `fl` over `prior` and writing `out`. -/
def fileAfterRun (prior : Option (List Char)) (fl : OpenFlags) (out : List Char) : List Char :=
  openedContent prior fl ++ out

/-- Where a stage's standard output ends up: the child `dup2`s the next
channel's write end when it is not the last stage, and afterwards — for
the last stage only — `dup2`s the redirection file over it if one was
recorded, which therefore takes precedence. -/
inductive OutDest
  | inherit
  | pipeWrite (i : Nat)
  | file (name : String) (append : Bool)
deriving DecidableEq

def stdoutDest (pl : Pipeline) (i : Nat) : OutDest :=
  let afterPipe := if i < pl.cmds.length - 1 then OutDest.pipeWrite i else OutDest.inherit
  if i = pl.cmds.length - 1 then
    match pl.outfile with
    | some f => OutDest.file f pl.append
    | none => afterPipe
  else afterPipe

end P2

end TinyShell

namespace TinyShell

/-! ## `atoi` round-trips decimal printing (for claim C3). -/

theorem digit_char_props : ∀ d, d < 10 →
    isDigitC (digitToChar d) = true ∧ digitVal (digitToChar d) = d
      ∧ isSpaceC (digitToChar d) = false
      ∧ digitToChar d ≠ '-' ∧ digitToChar d ≠ '+' := by
  decide

theorem natToDecAux_all_digit :
    ∀ fuel n, ∀ c ∈ natToDecAux fuel n,
      isDigitC c = true ∧ isSpaceC c = false ∧ c ≠ '-' ∧ c ≠ '+' := by
  intro fuel
  induction fuel with
  | zero => intro n c hc; simp [natToDecAux] at hc
  | succ f ih =>
    intro n c hc
    match n with
    | 0 => simp [natToDecAux] at hc
    | m + 1 =>
      rw [natToDecAux] at hc
      rcases List.mem_append.mp hc with hc2 | hc2
      · exact ih _ c hc2
      · have hd : (m + 1) % 10 < 10 := Nat.mod_lt _ (by norm_num)
        rcases List.mem_singleton.mp hc2 with rfl
        obtain ⟨h1, _, h3, h4, h5⟩ := digit_char_props _ hd
        exact ⟨h1, h3, h4, h5⟩

theorem digitsAcc_append_digits :
    ∀ (l1 l2 : List Char) (acc : Nat), (∀ c ∈ l1, isDigitC c = true) →
      digitsAcc (l1 ++ l2) acc = digitsAcc l2 (digitsAcc l1 acc) := by
  intro l1
  induction l1 with
  | nil => intro l2 acc _; rfl
  | cons c cs ih =>
    intro l2 acc hall
    have hc := hall c (List.mem_cons_self _ _)
    simp only [List.cons_append, digitsAcc, hc, if_pos]
    exact ih l2 _ (fun x hx => hall x (List.mem_cons_of_mem _ hx))

theorem digitsAcc_natToDecAux :
    ∀ fuel n acc, n ≤ fuel →
      digitsAcc (natToDecAux fuel n) acc
        = acc * 10 ^ (natToDecAux fuel n).length + n := by
  intro fuel
  induction fuel with
  | zero =>
    intro n acc hn
    interval_cases n
    simp [natToDecAux, digitsAcc]
  | succ f ih =>
    intro n acc hn
    match n with
    | 0 => simp [natToDecAux, digitsAcc]
    | m + 1 =>
      rw [natToDecAux]
      rw [digitsAcc_append_digits _ _ _
        (fun c hc => (natToDecAux_all_digit f ((m + 1) / 10) c hc).1)]
      have hdivlt : (m + 1) / 10 < m + 1 := Nat.div_lt_self (Nat.succ_pos m) (by norm_num)
      rw [ih ((m + 1) / 10) acc (by omega)]
      have hd : (m + 1) % 10 < 10 := Nat.mod_lt _ (by norm_num)
      obtain ⟨h1, h2, _, _, _⟩ := digit_char_props _ hd
      simp only [digitsAcc, h1, if_pos, h2]
      rw [List.length_append, List.length_singleton]
      calc (acc * 10 ^ (natToDecAux f ((m + 1) / 10)).length + (m + 1) / 10) * 10
            + (m + 1) % 10
          = acc * (10 ^ (natToDecAux f ((m + 1) / 10)).length * 10)
              + ((m + 1) / 10 * 10 + (m + 1) % 10) := by ring
        _ = acc * 10 ^ ((natToDecAux f ((m + 1) / 10)).length + 1) + (m + 1) := by
            rw [pow_succ]
            congr 1
            omega

theorem digitsAcc_natToDecChars (n : Nat) : digitsAcc (natToDecChars n) 0 = n := by
  have h := digitsAcc_natToDecAux n n 0 le_rfl
  simpa [natToDecChars] using h

theorem natToDecChars_ne_nil (n : Nat) (h : 0 < n) : natToDecChars n ≠ [] := by
  unfold natToDecChars
  match n, h with
  | m + 1, _ =>
    rw [natToDecAux]
    simp

theorem atoiChars_all_digits (l : List Char)
    (hall : ∀ c ∈ l, isDigitC c = true ∧ isSpaceC c = false ∧ c ≠ '-' ∧ c ≠ '+')
    (hne : l ≠ []) : atoiChars l = (digitsAcc l 0 : Int) := by
  match l, hne with
  | c :: cs, _ =>
    obtain ⟨hd, hs, hm, hp⟩ := hall c (List.mem_cons_self _ _)
    simp only [atoiChars, hs, Bool.false_eq_true, if_neg, hm, hp, hd, if_pos,
      not_false_iff, ite_false, ite_true]

theorem atoi_intToDec : ∀ N : Int, atoi (intToDec N) = N := by
  intro N
  rcases lt_trichotomy N 0 with hneg | hz | hpos
  · unfold intToDec
    rw [if_pos hneg]
    show atoiChars ('-' :: natToDecChars N.natAbs) = N
    have hred : atoiChars ('-' :: natToDecChars N.natAbs)
        = -(digitsAcc (natToDecChars N.natAbs) 0 : Int) := by
      simp [atoiChars, isSpaceC]
    rw [hred, digitsAcc_natToDecChars]
    omega
  · subst hz
    decide
  · unfold intToDec
    rw [if_neg (by omega), if_neg (by omega)]
    show atoiChars (natToDecChars N.toNat) = N
    have h0 : 0 < N.toNat := by omega
    have hred := atoiChars_all_digits (natToDecChars N.toNat)
      (fun c hc => natToDecAux_all_digit N.toNat N.toNat c hc)
      (natToDecChars_ne_nil N.toNat h0)
    rw [hred, digitsAcc_natToDecChars]
    omega

/-- Claim C3, amended: `exit` always terminates the hosting process, but
only the phase 1/2 shells honour the argument — there `exit N` returns
status `atoi(N)`, hence exactly `N` for every decimal integer literal
`N`, and 0 when the argument is absent; the phase 3 shell's
`builtin_cmd` calls `exit(0)` for `exit` (and `quit`) regardless of any
argument. -/
theorem claim_C3_amended :
    (∀ N : Int, P1.exitResult ["exit", intToDec N] = some N)
    ∧ P1.exitResult ["exit"] = some 0
    ∧ (∀ (argv : List String) (a0 : String) (rest : List String),
        argv = a0 :: rest → a0 = "exit" ∨ a0 = "quit" →
        P3.builtin_cmd_exitCode argv = some 0) := by
  refine ⟨?_, by decide, ?_⟩
  · intro N
    simp [P1.exitResult, atoi_intToDec]
  · intro argv a0 rest h hcase
    subst h
    rcases hcase with rfl | rfl <;> simp [P3.builtin_cmd_exitCode]

/-- Witness for the amended claim C3: `exit -37` returns -37 in phase 1,
bare `exit` returns 0, and phase 3's `exit 5` still exits with 0. -/
theorem claim_C3_witness :
    P1.exitResult ["exit", "-37"] = some (-37)
    ∧ P1.exitResult ["exit"] = some 0
    ∧ P3.builtin_cmd_exitCode ["exit", "5"] = some 0 := by
  refine ⟨?_, claim_C3_amended.2.1,
    claim_C3_amended.2.2 ["exit", "5"] "exit" ["5"] rfl (Or.inl rfl)⟩
  have h := claim_C3_amended.1 (-37)
  have hdec : intToDec (-37) = "-37" := by decide
  rw [hdec] at h
  exact h

namespace P3

/-- Claim C1: in `eval`, SIGCHLD is blocked before `fork` and unblocked
only after `addjob` has registered the job, for both the foreground and
the background launch path; consequently, at every point of the launch
at which a SIGCHLD could be handled, either the child does not exist yet
or its job-table entry already exists. -/
theorem claim_C1_block_protocol :
    protocolOk (evalParentTrace true) = true ∧ protocolOk (evalParentTrace false) = true := by
  decide

/-- Claim C2, counterexample: after filling the table (ids 1..16, counter
wraps to 1), deleting the job with pid 2 and adding once more, `addjob`
assigns job id 1 even though the job with id 1 is still live — the live
job ids are not pairwise distinct. -/
theorem claim_C2_counterexample : ¬ (liveJids (runOps cexOps)).Nodup := by
  decide

/-- Claim C3, counterexample: in phase 3, `exit 5` terminates the shell
with code 0, not 5 — `builtin_cmd` calls `exit(0)` whatever the
argument says. -/
theorem claim_C3_counterexample :
    builtin_cmd_exitCode ["exit", "5"] = some 0 ∧ (0 : Int) ≠ 5 := by
  decide

/-- Claim C4 is right and the code is wrong: on the malformed argument
`%0` (or any `%text` that `atoi` maps to 0) with an empty job table,
`do_bgfg` does not print an error; `getjob_jid(0)` matches the first
cleared slot, so the shell sends SIGCONT to process group 0 (its own),
marks the free slot Foreground, hands the terminal to group 0 and blocks
in `waitfg` on pid 0 — instead of failing gracefully. -/
theorem claim_C4_code_eval :
    (do_bgfg 100 initState ["fg", "%0"] true).2
        = [Act.kill 0 Signal.sigcont, Act.tcsetpgrp 0, Act.waitfgFor 0, Act.tcsetpgrp 100]
      ∧ (do_bgfg 100 initState ["fg", "%0"] true).1 ≠ initState := by
  decide

/-! ### Scan lemmas for `updateFirst` (shared by the reactor and builtin
theorems). -/

theorem find?_updateFirst (l : List job_t) (p : job_t → Bool) (f : job_t → job_t)
    (j : job_t) (hfind : l.find? p = some j) (hp : p (f j) = true) :
    (updateFirst p f l).find? p = some (f j) := by
  induction l with
  | nil => simp at hfind
  | cons x t ih =>
    by_cases hx : p x
    · rw [List.find?_cons_of_pos _ hx] at hfind
      cases hfind
      simp only [updateFirst, hx, if_pos]
      exact List.find?_cons_of_pos _ hp
    · rw [List.find?_cons_of_neg _ hx] at hfind
      simp only [updateFirst, hx, if_neg, Bool.false_eq_true, not_false_iff, ite_false]
      rw [List.find?_cons_of_neg _ hx]
      exact ih hfind

theorem find?_updateFirst_clear (l : List job_t) (p : job_t → Bool)
    (hcount : l.countP p ≤ 1) (hclear : p clearjob = false) :
    (updateFirst p (fun _ => clearjob) l).find? p = none := by
  induction l with
  | nil => simp [updateFirst]
  | cons x t ih =>
    by_cases hx : p x
    · simp only [updateFirst, hx, if_pos]
      rw [List.find?_cons_of_neg _ (by simp [hclear])]
      rw [List.countP_cons_of_pos _ _ hx] at hcount
      have ht : t.countP p = 0 := by omega
      exact List.find?_eq_none.mpr fun y hy => by
        have := (List.countP_eq_zero).mp ht y hy
        simp [this]
    · simp only [updateFirst, hx, if_neg, Bool.false_eq_true, not_false_iff, ite_false]
      rw [List.find?_cons_of_neg _ hx]
      rw [List.countP_cons_of_neg _ _ hx] at hcount
      exact ih hcount

/-- Claim C6: for every job table and every drained notification, the
SIGCHLD handler (1) leaves the table unchanged and reports nothing when
the pid matches no entry; (2) does nothing on a continued notification;
(3) on a stopped notification surfaces exactly the stopped line carrying
the job id and original command text and flips the matched entry's state
to `ST`; (4) on an exited or signaled notification deletes the matched
job, so that (when table pids are unique and the pid is a real one) no
entry with that pid remains. -/
theorem claim_C6_reactor :
    ∀ (s : JobsState) (pid : Int),
      (∀ w, getjob_pid s pid = none → handle1 s pid w = (s, [])) ∧
      (∀ j, getjob_pid s pid = some j →
        (handle1 s pid WStatus.continued = (s, [])
         ∧ (∀ sg, (handle1 s pid (WStatus.stopped sg)).2 = [stoppedMsg j.jid j.cmdline]
              ∧ getjob_pid (handle1 s pid (WStatus.stopped sg)).1 pid
                  = some { j with state := job_state.ST })
         ∧ (∀ c, (handle1 s pid (WStatus.exited c)).1 = deletejob s pid)
         ∧ (∀ sg, (handle1 s pid (WStatus.signaled sg)).1 = deletejob s pid)
         ∧ (pid ≠ 0 → s.jobs.countP (fun x => x.pid == pid) ≤ 1 →
             (∀ c, getjob_pid (handle1 s pid (WStatus.exited c)).1 pid = none)
             ∧ (∀ sg, getjob_pid (handle1 s pid (WStatus.signaled sg)).1 pid = none)))) := by
  intro s pid
  constructor
  · intro w hnone
    unfold getjob_pid at hnone
    unfold handle1
    rw [hnone]
  · intro j hsome
    unfold getjob_pid at hsome
    have hpj0 := List.find?_some hsome
    have hpj : (j.pid == pid) = true := by simpa using hpj0
    constructor
    · unfold handle1; rw [hsome]
    refine ⟨fun sg => ⟨?_, ?_⟩, fun c => ?_, fun sg => ?_, fun hpid0 hcount => ⟨fun c => ?_, fun sg => ?_⟩⟩
    · unfold handle1; rw [hsome]
    · show getjob_pid (handle1 s pid (WStatus.stopped sg)).1 pid = _
      unfold handle1
      rw [hsome]
      unfold getjob_pid
      exact find?_updateFirst s.jobs _ _ j hsome (by simpa using hpj)
    · unfold handle1; rw [hsome]
    · unfold handle1; rw [hsome]
    · show getjob_pid (handle1 s pid (WStatus.exited c)).1 pid = none
      unfold handle1
      rw [hsome]
      unfold getjob_pid deletejob
      exact find?_updateFirst_clear s.jobs _ hcount (by simp [clearjob, Ne.symm hpid0])
    · show getjob_pid (handle1 s pid (WStatus.signaled sg)).1 pid = none
      unfold handle1
      rw [hsome]
      unfold getjob_pid deletejob
      exact find?_updateFirst_clear s.jobs _ hcount (by simp [clearjob, Ne.symm hpid0])

/-- Witness for claim C6 at a concrete table: stopping pid 7 surfaces the
stopped line for job 3 with its command text, reaping pid 7 removes its
entry, and an unmatched pid (99) changes nothing. -/
theorem claim_C6_witness :
    (handle1 sampleS 7 (WStatus.stopped 20)).2 = [stoppedMsg 3 "sleep 100 &"]
    ∧ getjob_pid (handle1 sampleS 7 (WStatus.exited 0)).1 7 = none
    ∧ handle1 sampleS 99 WStatus.continued = (sampleS, []) :=
  ⟨((claim_C6_reactor sampleS 7).2 sampleJob (by decide)).2.1 20 |>.1,
   (((claim_C6_reactor sampleS 7).2 sampleJob (by decide)).2.2.2.2 (by decide)
      (by decide)).1 0,
   (claim_C6_reactor sampleS 99).1 WStatus.continued (by decide)⟩

/-! ### Job-id uniqueness before the counter wraps (claim C2). -/

theorem updateFirst_length (p : job_t → Bool) (f : job_t → job_t) :
    ∀ l : List job_t, (updateFirst p f l).length = l.length := by
  intro l
  induction l with
  | nil => rfl
  | cons x t ih =>
    by_cases hx : p x <;> simp [updateFirst, hx, ih]

theorem liveJids_deletejob_sublist (s : JobsState) (pid : Int) :
    List.Sublist (liveJids (deletejob s pid)) (liveJids s) := by
  unfold liveJids deletejob
  simp only
  refine List.Sublist.map _ ?_
  generalize s.jobs = l
  induction l with
  | nil => simp [updateFirst]
  | cons x t ih =>
    by_cases hx : (x.pid == pid)
    · simp only [updateFirst, hx, if_pos]
      have hclear : isLive clearjob = false := by decide
      rw [List.filter_cons_of_neg (by simp [hclear])]
      by_cases hlx : isLive x
      · rw [List.filter_cons_of_pos hlx]
        exact List.sublist_cons_of_sublist x (List.Sublist.refl _)
      · rw [List.filter_cons_of_neg (by simpa using hlx)]
    · simp only [updateFirst, hx, if_neg, Bool.false_eq_true, not_false_iff, ite_false]
      by_cases hlx : isLive x
      · rw [List.filter_cons_of_pos hlx, List.filter_cons_of_pos hlx]
        exact List.Sublist.cons₂ x ih
      · rw [List.filter_cons_of_neg (by simpa using hlx),
          List.filter_cons_of_neg (by simpa using hlx)]
        exact ih

theorem addjobAux_none (pid pgid jid : Int) (st : job_state) (cmd : String) :
    ∀ l : List job_t, addjobAux pid pgid jid st cmd l = none →
      ∀ x ∈ l, (x.pid == 0) = false := by
  intro l
  induction l with
  | nil => intro _ x hx; simp at hx
  | cons y t ih =>
    intro hnone x hx
    by_cases hy : (y.pid == 0)
    · simp [addjobAux, hy] at hnone
    · simp only [addjobAux, hy, Bool.false_eq_true, if_neg, not_false_iff, ite_false] at hnone
      rcases List.mem_cons.mp hx with rfl | hx2
      · simpa using hy
      · cases ht : addjobAux pid pgid jid st cmd t with
        | none => exact ih ht x hx2
        | some l0 => rw [ht] at hnone; simp at hnone

theorem addjobAux_some_len (pid pgid jid : Int) (st : job_state) (cmd : String) :
    ∀ (l l' : List job_t), addjobAux pid pgid jid st cmd l = some l' →
      l'.length = l.length := by
  intro l
  induction l with
  | nil => intro l' h; simp [addjobAux] at h
  | cons y t ih =>
    intro l' h
    by_cases hy : (y.pid == 0)
    · simp only [addjobAux, hy, if_pos] at h
      cases h
      simp
    · simp only [addjobAux, hy, Bool.false_eq_true, if_neg, not_false_iff, ite_false] at h
      cases ht : addjobAux pid pgid jid st cmd t with
      | none => rw [ht] at h; simp at h
      | some t' =>
        rw [ht] at h
        rw [Option.map_some'] at h
        cases h
        simp [ih t' ht]

theorem addjobAux_some_perm (pid pgid jid : Int) (st : job_state) (cmd : String)
    (hpid : pid ≠ 0) :
    ∀ (l l' : List job_t), addjobAux pid pgid jid st cmd l = some l' →
      ((l'.filter isLive).map job_t.jid).Perm
        (jid :: (l.filter isLive).map job_t.jid) := by
  intro l
  induction l with
  | nil => intro l' h; simp [addjobAux] at h
  | cons y t ih =>
    intro l' h
    by_cases hy : (y.pid == 0)
    · simp only [addjobAux, hy, if_pos] at h
      cases h
      have hnewlive : isLive ⟨pid, pgid, jid, st, cmd⟩ = true := by
        simp [isLive, hpid]
      have hydead : isLive y = false := by
        simp only [isLive]
        simpa using hy
      rw [List.filter_cons_of_pos hnewlive, List.filter_cons_of_neg (by simp [hydead])]
      simp
    · simp only [addjobAux, hy, Bool.false_eq_true, if_neg, not_false_iff, ite_false] at h
      cases ht : addjobAux pid pgid jid st cmd t with
      | none => rw [ht] at h; simp at h
      | some t' =>
        rw [ht] at h
        rw [Option.map_some'] at h
        cases h
        have hyl : isLive y = true := by
          simp only [isLive]
          simpa using hy
        rw [List.filter_cons_of_pos hyl, List.filter_cons_of_pos hyl]
        simp only [List.map_cons]
        exact ((ih t' ht).cons y.jid).trans (List.Perm.swap jid y.jid _)

theorem nodup_bounded_length (L : List Int) (a : Nat) (h : L.Nodup)
    (hb : ∀ x ∈ L, 1 ≤ x ∧ x ≤ (a : Int)) : L.length ≤ a := by
  have hsub : L.toFinset ⊆ Finset.Icc (1 : Int) (a : Int) := by
    intro x hx
    rw [List.mem_toFinset] at hx
    rcases hb x hx with ⟨h1, h2⟩
    exact Finset.mem_Icc.mpr ⟨h1, h2⟩
  have hcard := Finset.card_le_card hsub
  rw [List.toFinset_card_of_nodup h, Int.card_Icc] at hcard
  omega

theorem addjob_inv (s : JobsState) (a : Nat) (pid pgid : Int) (st : job_state)
    (cmd : String) (hInv : Inv s a) (hpid : pid ≠ 0) (ha : a + 1 ≤ MAXJOBS) :
    Inv (addjob s pid pgid st cmd) (a + 1) := by
  obtain ⟨hlen, hnext, hbound, hnodup⟩ := hInv
  have ha' : a < MAXJOBS := by omega
  have hnj : s.nextjid = (a : Int) + 1 := hnext ha'
  unfold addjob
  cases h : addjobAux pid pgid s.nextjid st cmd s.jobs with
  | none =>
    exfalso
    have hall : ∀ x ∈ s.jobs, isLive x = true := by
      intro x hx
      have := addjobAux_none pid pgid s.nextjid st cmd s.jobs h x hx
      simpa [isLive] using this
    have hfull : liveJids s = s.jobs.map job_t.jid := by
      unfold liveJids
      rw [List.filter_eq_self.mpr hall]
    have hlive : (liveJids s).length = MAXJOBS := by
      rw [hfull, List.length_map, hlen]
    have hle := nodup_bounded_length (liveJids s) a hnodup hbound
    rw [hlive] at hle
    unfold MAXJOBS at hle ha
    omega
  | some l' =>
    have hperm := addjobAux_some_perm pid pgid s.nextjid st cmd hpid s.jobs l' h
    have hperm' : (liveJids { jobs := l', nextjid := wrapjid (s.nextjid + 1) }).Perm
        (s.nextjid :: liveJids s) := hperm
    refine ⟨?_, ?_, ?_, ?_⟩
    · simpa [hlen] using addjobAux_some_len pid pgid s.nextjid st cmd s.jobs l' h
    · intro hlt
      show wrapjid (s.nextjid + 1) = ((a + 1 : Nat) : Int) + 1
      unfold wrapjid
      rw [hnj]
      unfold MAXJOBS at hlt
      have hcond : ¬ ((MAXJOBS : Int) < (a : Int) + 1 + 1) := by
        unfold MAXJOBS
        push_cast
        omega
      rw [if_neg hcond]
      push_cast
      ring
    · intro x hx
      have hx2 := hperm'.mem_iff.mp hx
      rcases List.mem_cons.mp hx2 with rfl | hx3
      · rw [hnj]
        constructor
        · omega
        · push_cast; omega
      · rcases hbound x hx3 with ⟨h1, h2⟩
        constructor
        · exact h1
        · push_cast; omega
    · rw [hperm'.nodup_iff]
      refine List.Nodup.cons ?_ hnodup
      intro hmem
      have hle := (hbound s.nextjid hmem).2
      rw [hnj] at hle
      omega

theorem deletejob_inv (s : JobsState) (a : Nat) (pid : Int) (hInv : Inv s a) :
    Inv (deletejob s pid) a := by
  obtain ⟨hlen, hnext, hbound, hnodup⟩ := hInv
  have hsub := liveJids_deletejob_sublist s pid
  refine ⟨?_, hnext, ?_, hnodup.sublist hsub⟩
  · show (updateFirst _ _ s.jobs).length = MAXJOBS
    rw [updateFirst_length, hlen]
  · intro x hx
    exact hbound x (hsub.mem hx)

theorem foldOps_inv :
    ∀ (ops : List Op) (s : JobsState) (a : Nat), Inv s a →
      (∀ op ∈ ops, opValid op) → a + countAdds ops ≤ MAXJOBS →
      Inv (ops.foldl applyOp s) (a + countAdds ops) := by
  intro ops
  induction ops with
  | nil =>
    intro s a hInv _ _
    simpa [countAdds] using hInv
  | cons op rest ih =>
    intro s a hInv hvalid hbudget
    cases op with
    | add pid pgid st cmd =>
      have hc : countAdds (Op.add pid pgid st cmd :: rest) = countAdds rest + 1 := by
        unfold countAdds
        rw [List.countP_cons_of_pos]
        rfl
      rw [hc] at hbudget ⊢
      have hpid : pid ≠ 0 := hvalid _ (List.mem_cons_self _ _)
      have hstep := addjob_inv s a pid pgid st cmd hInv hpid (by omega)
      have := ih (addjob s pid pgid st cmd) (a + 1) hstep
        (fun o ho => hvalid o (List.mem_cons_of_mem _ ho)) (by omega)
      show Inv ((Op.add pid pgid st cmd :: rest).foldl applyOp s) _
      rw [List.foldl_cons]
      show Inv (rest.foldl applyOp (addjob s pid pgid st cmd)) (a + (countAdds rest + 1))
      have harr : a + (countAdds rest + 1) = a + 1 + countAdds rest := by omega
      rw [harr]
      exact this
    | del pid =>
      have hc : countAdds (Op.del pid :: rest) = countAdds rest := by
        unfold countAdds
        rw [List.countP_cons_of_neg]
        simp
      rw [hc] at hbudget ⊢
      have hstep := deletejob_inv s a pid hInv
      have := ih (deletejob s pid) a hstep
        (fun o ho => hvalid o (List.mem_cons_of_mem _ ho)) hbudget
      rw [List.foldl_cons]
      exact this

/-- Claim C2, amended: the id counter increases monotonically and wraps
modulo the table capacity, but an id can be reassigned while a live
entry still holds it once the counter has wrapped; uniqueness does hold
for every sequence of `addjob`/`deletejob` operations (with the nonzero
pids `fork` produces) containing at most `MAXJOBS` adds — before the
counter wraps past the point of reuse, live job ids are pairwise
distinct. -/
theorem claim_C2_amended :
    ∀ ops : List Op, (∀ op ∈ ops, opValid op) → countAdds ops ≤ MAXJOBS →
      (liveJids (runOps ops)).Nodup := by
  intro ops hvalid hbudget
  have hinit : Inv initState 0 := by
    refine ⟨by decide, by decide, ?_, ?_⟩
    · intro x hx
      have : liveJids initState = [] := by decide
      rw [this] at hx
      simp at hx
    · have : liveJids initState = [] := by decide
      rw [this]
      exact List.nodup_nil
  have := foldOps_inv ops initState 0 hinit hvalid (by omega)
  exact this.2.2.2

/-- Witness for the amended claim C2: a short add/delete/add run stays
within the counter budget and keeps live job ids distinct. -/
theorem claim_C2_witness :
    (∀ op ∈ witnessOps, opValid op) ∧ countAdds witnessOps ≤ MAXJOBS
      ∧ (liveJids (runOps witnessOps)).Nodup :=
  ⟨by decide, by decide, claim_C2_amended witnessOps (by decide) (by decide)⟩

/-- Claim C9: whenever `do_bgfg` resumes a live job (well-formed `%jobid`
argument naming a job with positive pid and process-group id), the
continue signal is sent to the negative of the job's process-group id,
every `kill` it performs targets that value, and that target is never
the tracked pid itself. -/
theorem claim_C9_kill_group :
    ∀ (shellPgid : Int) (s : JobsState) (argv : List String) (fg : Bool)
      (a1 : String) (rest : List Char) (j : job_t),
      argv.get? 1 = some a1 → a1.data = '%' :: rest →
      s.jobs.find? (fun x => x.jid == atoi (String.mk rest)) = some j →
      0 < j.pid → 0 < j.pgid →
      Act.kill (-j.pgid) Signal.sigcont ∈ (do_bgfg shellPgid s argv fg).2
      ∧ (∀ t sg, Act.kill t sg ∈ (do_bgfg shellPgid s argv fg).2 → t = -j.pgid)
      ∧ -j.pgid ≠ j.pid := by
  intro shellPgid s argv fg a1 rest j hget hdata hfind hpid hpgid
  have hacts : (do_bgfg shellPgid s argv fg).2
      = (if fg then
          [Act.kill (-j.pgid) Signal.sigcont, Act.tcsetpgrp j.pgid,
           Act.waitfgFor j.pid, Act.tcsetpgrp shellPgid]
         else
          [Act.kill (-j.pgid) Signal.sigcont,
           Act.outLine (bgBannerMsg j.jid j.cmdline)]) := by
    unfold do_bgfg
    simp only [hget, hdata, hfind]
    cases fg <;> simp
  refine ⟨?_, ?_, by omega⟩
  · rw [hacts]; cases fg <;> simp
  · intro t sg ht
    rw [hacts] at ht
    cases fg <;> simp at ht <;> exact ht.1

/-- Witness for claim C9: resuming job `%3` in the sample table sends
SIGCONT to `-7`, the negated group id, which differs from the pid 7. -/
theorem claim_C9_witness :
    Act.kill (-7) Signal.sigcont ∈ (do_bgfg 100 sampleS ["fg", "%3"] true).2
    ∧ (-7 : Int) ≠ 7 :=
  ⟨(claim_C9_kill_group 100 sampleS ["fg", "%3"] true "%3" ['3'] sampleJob
      (by decide) (by decide) (by decide) (by decide) (by decide)).1,
   by decide⟩

end P3

namespace P2

/-! ## Phase 2 theorems.

First, plain rewrite equations for `scanLoop` and `parseLoop` (their
defining `match`/`if` structure, split by branch). -/

theorem scanLoop_nil (cur : Nat) : scanLoop [] cur = ⟨[cur], 0, false⟩ := by
  rw [scanLoop.eq_def]

theorem scanLoop_pipe (rest : List String) (cur : Nat) :
    scanLoop ("|" :: rest) cur
      = ⟨cur :: (scanLoop rest 0).stages, (scanLoop rest 0).redirOps,
         (scanLoop rest 0).dangling⟩ := by
  rw [scanLoop.eq_def]
  simp

theorem scanLoop_redir_last (tok : String) (cur : Nat) (h : tok = ">" ∨ tok = ">>") :
    scanLoop [tok] cur = ⟨[cur], 0, true⟩ := by
  rcases h with rfl | rfl <;> (rw [scanLoop.eq_def]; simp)

theorem scanLoop_redir (tok x : String) (rest2 : List String) (cur : Nat)
    (h : tok = ">" ∨ tok = ">>") :
    scanLoop (tok :: x :: rest2) cur
      = ⟨(scanLoop rest2 cur).stages, (scanLoop rest2 cur).redirOps + 1,
         (scanLoop rest2 cur).dangling⟩ := by
  rcases h with rfl | rfl <;> (rw [scanLoop.eq_def]; simp)

theorem scanLoop_word (tok : String) (rest : List String) (cur : Nat)
    (h1 : tok ≠ "|") (h2 : tok ≠ ">") (h3 : tok ≠ ">>") :
    scanLoop (tok :: rest) cur = scanLoop rest (cur + 1) := by
  rw [scanLoop.eq_def]
  simp [h1, h2, h3]

theorem parseLoop_nil (done : List (List String)) (cur : List String)
    (redir : Option (String × Bool)) :
    parseLoop [] done cur redir
      = if cur.isEmpty then none
        else some ⟨done ++ [cur], redir.map Prod.fst, (redir.map Prod.snd).getD false⟩ := by
  rw [parseLoop.eq_def]

theorem parseLoop_pipe (rest : List String) (done : List (List String))
    (cur : List String) (redir : Option (String × Bool)) :
    parseLoop ("|" :: rest) done cur redir
      = if cur.isEmpty then none
        else if MAX_CMDS ≤ done.length + 1 then none
        else parseLoop rest (done ++ [cur]) [] redir := by
  rw [parseLoop.eq_def]
  simp

theorem parseLoop_redir_last (tok : String) (done : List (List String))
    (cur : List String) (redir : Option (String × Bool)) (h : tok = ">" ∨ tok = ">>") :
    parseLoop [tok] done cur redir = none := by
  rcases h with rfl | rfl <;> (rw [parseLoop.eq_def]; simp)

theorem parseLoop_redir (tok fname : String) (rest2 : List String)
    (done : List (List String)) (cur : List String) (redir : Option (String × Bool))
    (h : tok = ">" ∨ tok = ">>") :
    parseLoop (tok :: fname :: rest2) done cur redir
      = if redir.isSome then none
        else parseLoop rest2 done cur (some (fname, tok = ">>")) := by
  rcases h with rfl | rfl <;> (rw [parseLoop.eq_def]; simp)

theorem parseLoop_word (tok : String) (rest : List String) (done : List (List String))
    (cur : List String) (redir : Option (String × Bool))
    (h1 : tok ≠ "|") (h2 : tok ≠ ">") (h3 : tok ≠ ">>") :
    parseLoop (tok :: rest) done cur redir
      = if MAX_ARGS - 1 ≤ cur.length then none
        else parseLoop rest done (cur ++ [tok]) redir := by
  rw [parseLoop.eq_def]
  simp [h1, h2, h3]

theorem redirop_of (tok : String)
    (h2 : (decide (tok = ">") || decide (tok = ">>")) = true) :
    tok = ">" ∨ tok = ">>" := by
  rcases (Bool.or_eq_true _ _).mp h2 with h | h
  · exact Or.inl (of_decide_eq_true h)
  · exact Or.inr (of_decide_eq_true h)

theorem not_redirop (tok : String)
    (h2 : ¬(decide (tok = ">") || decide (tok = ">>")) = true) :
    tok ≠ ">" ∧ tok ≠ ">>" := by
  constructor <;> intro hc <;> subst hc <;> simp at h2

theorem scanLoop_head_ge :
    ∀ (tokens : List String) (c : Nat),
      ∃ hd tl, (scanLoop tokens c).stages = hd :: tl ∧ c ≤ hd := by
  intro tokens c
  induction tokens, c using scanLoop.induct with
  | case1 cur => exact ⟨cur, [], by rw [scanLoop_nil], le_rfl⟩
  | case2 rest cur ih =>
    exact ⟨cur, (scanLoop rest 0).stages, by rw [scanLoop_pipe], le_rfl⟩
  | case3 tok cur h1 h2 =>
    exact ⟨cur, [], by rw [scanLoop_redir_last tok cur (redirop_of tok h2)], le_rfl⟩
  | case4 tok cur h1 h2 hd2 rest2 ih =>
    obtain ⟨hd, tl, hstages, hge⟩ := ih
    exact ⟨hd, tl, by
      rw [scanLoop_redir tok hd2 rest2 cur (redirop_of tok h2)]
      exact hstages, hge⟩
  | case5 tok rest cur h1 h2 ih =>
    obtain ⟨hd, tl, hstages, hge⟩ := ih
    obtain ⟨hn2, hn3⟩ := not_redirop tok h2
    refine ⟨hd, tl, ?_, by omega⟩
    rw [scanLoop_word tok rest cur h1 hn2 hn3]
    exact hstages

theorem parseLoop_none_iff :
    ∀ (tokens : List String) (done : List (List String)) (cur : List String)
      (redir : Option (String × Bool)),
      done.length + 1 ≤ MAX_CMDS → cur.length ≤ MAX_ARGS - 1 →
      (parseLoop tokens done cur redir = none
        ↔ scanFailAux (scanLoop tokens cur.length) done.length redir.isSome) := by
  intro tokens done cur redir
  induction tokens, done, cur, redir using parseLoop.induct with
  | case1 done cur redir hcur =>
    intro hdone _
    rw [List.isEmpty_iff] at hcur
    subst hcur
    rw [parseLoop_nil, scanLoop_nil]
    simp [scanFailAux]
  | case2 done cur redir hcur =>
    intro hdone hargs
    have hcur' : cur ≠ [] := by simpa [List.isEmpty_iff] using hcur
    rw [parseLoop_nil, scanLoop_nil, if_neg hcur]
    unfold scanFailAux
    simp only [List.any_cons, List.any_nil, List.length_singleton]
    constructor
    · intro h
      exact absurd h (by simp)
    · intro h
      exfalso
      rcases h with h | h | h | h | h
      · simp at h
        exact hcur' h
      · simp at h
      · split at h <;> omega
      · replace h : 32 < done.length + 1 := h
        replace hdone : done.length + 1 ≤ 32 := hdone
        omega
      · simp at h
        replace h : 255 < cur.length := h
        replace hargs : cur.length ≤ 255 := hargs
        omega
  | case3 rest done cur redir hcur =>
    intro _ _
    rw [List.isEmpty_iff] at hcur
    subst hcur
    rw [parseLoop_pipe, scanLoop_pipe]
    rw [if_pos (by simp)]
    unfold scanFailAux
    constructor
    · intro _
      exact Or.inl (by simp)
    · intro _
      rfl
  | case4 rest done cur redir hcur hmax =>
    intro hdone _
    rw [parseLoop_pipe, scanLoop_pipe]
    rw [if_neg hcur, if_pos hmax]
    unfold scanFailAux
    constructor
    · intro _
      refine Or.inr (Or.inr (Or.inr (Or.inl ?_)))
      obtain ⟨hd, tl, hstages, _⟩ := scanLoop_head_ge rest 0
      show MAX_CMDS < done.length + (cur.length :: (scanLoop rest 0).stages).length
      rw [hstages]
      replace hmax : 32 ≤ done.length + 1 := hmax
      show 32 < done.length + (cur.length :: hd :: tl).length
      simp only [List.length_cons]
      omega
    · intro _
      rfl
  | case5 rest done cur redir hcur hmax ih =>
    intro hdone hargs
    have hcur' : cur ≠ [] := by simpa [List.isEmpty_iff] using hcur
    have hc0 : cur.length ≠ 0 := fun h => hcur' (List.length_eq_zero.mp h)
    rw [parseLoop_pipe, scanLoop_pipe]
    rw [if_neg hcur, if_neg hmax]
    have hd2 : (done ++ [cur]).length + 1 ≤ MAX_CMDS := by
      simp only [List.length_append, List.length_singleton]
      replace hmax : ¬32 ≤ done.length + 1 := hmax
      show done.length + 1 + 1 ≤ 32
      omega
    have hih := ih hd2 (by simp [MAX_ARGS])
    rw [hih]
    unfold scanFailAux
    simp only [List.any_cons, List.length_append, List.length_nil, List.length_cons,
      List.length_singleton]
    constructor
    · intro h
      rcases h with h | h | h | h | h
      · exact Or.inl (by simp [h])
      · exact Or.inr (Or.inl h)
      · exact Or.inr (Or.inr (Or.inl h))
      · exact Or.inr (Or.inr (Or.inr (Or.inl (by omega))))
      · exact Or.inr (Or.inr (Or.inr (Or.inr (by simp [h]))))
    · intro h
      rcases h with h | h | h | h | h
      · rcases (Bool.or_eq_true _ _).mp h with h | h
        · exact absurd (by simpa using h) hc0
        · exact Or.inl h
      · exact Or.inr (Or.inl h)
      · exact Or.inr (Or.inr (Or.inl h))
      · exact Or.inr (Or.inr (Or.inr (Or.inl (by omega))))
      · rcases (Bool.or_eq_true _ _).mp h with h | h
        · exfalso
          have hbig : MAX_ARGS - 1 < cur.length := by simpa using h
          replace hbig : 255 < cur.length := hbig
          replace hargs : cur.length ≤ 255 := hargs
          omega
        · exact Or.inr (Or.inr (Or.inr (Or.inr h)))
  | case6 tok done cur redir h1 h2 =>
    intro _ _
    rw [parseLoop_redir_last tok done cur redir (redirop_of tok h2),
      scanLoop_redir_last tok cur.length (redirop_of tok h2)]
    unfold scanFailAux
    constructor
    · intro _
      exact Or.inr (Or.inl rfl)
    · intro _
      rfl
  | case7 tok done cur redir h1 h2 fname rest2 hredir =>
    intro _ _
    rw [parseLoop_redir tok fname rest2 done cur redir (redirop_of tok h2),
      if_pos hredir, scanLoop_redir tok fname rest2 cur.length (redirop_of tok h2)]
    unfold scanFailAux
    constructor
    · intro _
      refine Or.inr (Or.inr (Or.inl ?_))
      rw [if_pos hredir]
      show 1 ≤ (scanLoop rest2 cur.length).redirOps + 1
      omega
    · intro _
      rfl
  | case8 tok done cur redir h1 h2 fname rest2 hredir ih =>
    intro hdone hargs
    have hs : redir.isSome = false := by simpa using hredir
    rw [parseLoop_redir tok fname rest2 done cur redir (redirop_of tok h2),
      if_neg hredir, scanLoop_redir tok fname rest2 cur.length (redirop_of tok h2)]
    have hih := ih hdone hargs
    rw [hih]
    unfold scanFailAux
    simp only [Option.isSome_some, hs, eq_self_iff_true, Bool.false_eq_true,
      if_true, if_false]
    constructor
    · intro h3
      rcases h3 with h3 | h3 | h3 | h3 | h3
      · exact Or.inl h3
      · exact Or.inr (Or.inl h3)
      · exact Or.inr (Or.inr (Or.inl (by omega)))
      · exact Or.inr (Or.inr (Or.inr (Or.inl h3)))
      · exact Or.inr (Or.inr (Or.inr (Or.inr h3)))
    · intro h3
      rcases h3 with h3 | h3 | h3 | h3 | h3
      · exact Or.inl h3
      · exact Or.inr (Or.inl h3)
      · exact Or.inr (Or.inr (Or.inl (by omega)))
      · exact Or.inr (Or.inr (Or.inr (Or.inl h3)))
      · exact Or.inr (Or.inr (Or.inr (Or.inr h3)))
  | case9 tok rest done cur redir h1 h2 hlen =>
    intro hdone hargs
    obtain ⟨hn2, hn3⟩ := not_redirop tok h2
    rw [parseLoop_word tok rest done cur redir h1 hn2 hn3, if_pos hlen]
    rw [scanLoop_word tok rest cur.length h1 hn2 hn3]
    unfold scanFailAux
    constructor
    · intro _
      refine Or.inr (Or.inr (Or.inr (Or.inr ?_)))
      obtain ⟨hd, tl, hstages, hge⟩ := scanLoop_head_ge rest (cur.length + 1)
      rw [hstages]
      simp only [List.any_cons]
      refine (Bool.or_eq_true _ _).mpr (Or.inl ?_)
      simp only [decide_eq_true_iff]
      show MAX_ARGS - 1 < hd
      replace hlen : 255 ≤ cur.length := hlen
      show 255 < hd
      omega
    · intro _
      rfl
  | case10 tok rest done cur redir h1 h2 hlen ih =>
    intro hdone hargs
    obtain ⟨hn2, hn3⟩ := not_redirop tok h2
    rw [parseLoop_word tok rest done cur redir h1 hn2 hn3, if_neg hlen]
    rw [scanLoop_word tok rest cur.length h1 hn2 hn3]
    have hih := ih hdone (by
      simp only [List.length_append, List.length_singleton]
      replace hlen : ¬255 ≤ cur.length := hlen
      show cur.length + 1 ≤ 255
      omega)
    rw [hih]
    simp [List.length_append]

/-- Claim C5, counterexample: the token sequence `a > >` contains two
redirection operators, so the claim's condition list says parsing must
fail; the parser accepts it (the word after the first `>` is consumed as
its filename, even though it is `>`). -/
theorem claim_C5_counterexample :
    claimC5Cond ["a", ">", ">"] ∧ (parse_pipeline ["a", ">", ">"]).isSome = true := by
  constructor
  · exact Or.inr (Or.inr (Or.inr (Or.inl (by decide))))
  · decide

/-- Claim C5, amended: the parser fails exactly when some stage has no
argument words (counting a redirection operator and its consumed
filename as non-arguments — this covers the empty input, a stage
adjacent to `|`, and a command consisting only of a redirection), or a
redirection operator in operator position is the last token, or more
than one redirection operator is processed in operator position (the
word directly after a redirection operator is consumed as its filename,
even if it looks like an operator), or the number of stages exceeds the
maximum (32), or some stage's argument count exceeds the maximum (255);
and on parser failure no stage process is launched. -/
theorem claim_C5_amended :
    ∀ tokens : List String,
      (parse_pipeline tokens = none ↔ amendedFails tokens = true)
      ∧ (parse_pipeline tokens = none → stagesLaunched tokens = 0) := by
  intro tokens
  refine ⟨?_, ?_⟩
  · by_cases hemp : tokens.isEmpty = true
    · rw [List.isEmpty_iff] at hemp
      subst hemp
      constructor
      · intro _
        decide
      · intro _
        decide
    · have hpp : parse_pipeline tokens = parseLoop tokens [] [] none := by
        unfold parse_pipeline
        rw [if_neg hemp]
      have hiff := parseLoop_none_iff tokens [] [] none
        (by show 0 + 1 ≤ MAX_CMDS; show 0 + 1 ≤ 32; omega)
        (by show 0 ≤ MAX_ARGS - 1; show 0 ≤ 255; omega)
      rw [hpp]
      simp only [List.length_nil] at hiff
      rw [hiff]
      unfold scanFailAux amendedFails
      simp only [Option.isSome_none, Bool.false_eq_true, if_false, Bool.or_eq_true,
        decide_eq_true_iff, Nat.zero_add]
      constructor
      · intro h
        rcases h with h | h | h | h | h
        · exact Or.inl (Or.inl (Or.inl (Or.inl h)))
        · exact Or.inl (Or.inl (Or.inl (Or.inr h)))
        · exact Or.inl (Or.inl (Or.inr (by omega)))
        · exact Or.inl (Or.inr h)
        · exact Or.inr h
      · intro h
        rcases h with (((h | h) | h) | h) | h
        · exact Or.inl h
        · exact Or.inr (Or.inl h)
        · exact Or.inr (Or.inr (Or.inl (by omega)))
        · exact Or.inr (Or.inr (Or.inr (Or.inl h)))
        · exact Or.inr (Or.inr (Or.inr (Or.inr h)))
  · intro h
    unfold stagesLaunched
    rw [h]

/-- Witness for the amended claim C5: `> f` has a stage with no argument
words, so the parser rejects it and launches nothing. -/
theorem claim_C5_witness :
    parse_pipeline [">", "f"] = none ∧ stagesLaunched [">", "f"] = 0 := by
  have h := claim_C5_amended [">", "f"]
  have h1 : parse_pipeline [">", "f"] = none := h.1.mpr (by decide)
  exact ⟨h1, h.2 h1⟩

/-! ### Claim C10: a redirection may sit anywhere in the token sequence. -/

theorem parseLoop_words :
    ∀ (w rest : List String) (done : List (List String)) (cur : List String)
      (redir : Option (String × Bool)),
      (∀ x ∈ w, x ≠ "|" ∧ x ≠ ">" ∧ x ≠ ">>") →
      cur.length + w.length ≤ MAX_ARGS - 1 →
      parseLoop (w ++ rest) done cur redir = parseLoop rest done (cur ++ w) redir := by
  intro w
  induction w with
  | nil =>
    intro rest done cur redir _ _
    simp
  | cons x w' ih =>
    intro rest done cur redir hall hlen
    obtain ⟨hx1, hx2, hx3⟩ := hall x (List.mem_cons_self _ _)
    rw [List.cons_append, parseLoop_word x (w' ++ rest) done cur redir hx1 hx2 hx3]
    have hlen' : cur.length + (w'.length + 1) ≤ 255 := by
      simpa using hlen
    rw [if_neg (by
      intro hc
      replace hc : 255 ≤ cur.length := hc
      omega)]
    rw [ih rest done (cur ++ [x]) redir
      (fun y hy => hall y (List.mem_cons_of_mem _ hy))
      (by
        simp only [List.length_append, List.length_singleton]
        show cur.length + 1 + w'.length ≤ 255
        omega)]
    rw [List.append_assoc]
    rfl

/-- Claim C10: the parser accepts a redirection operator at any token
position — here inside the first of two stages, before a `|`; the
operator and its filename are recorded in the pipeline's redirection
fields and do not enter any stage's argument vector, and the recorded
redirection is applied to the final stage's standard output. -/
theorem claim_C10_redirection_position :
    ∀ (a b c : List String) (f : String),
      (∀ w ∈ a ++ b ++ c, w ≠ "|" ∧ w ≠ ">" ∧ w ≠ ">>") →
      (a ++ b).length ≤ MAX_ARGS - 1 → c.length ≤ MAX_ARGS - 1 →
      a ++ b ≠ [] → c ≠ [] →
      parse_pipeline (a ++ [">", f] ++ b ++ ["|"] ++ c)
          = some ⟨[a ++ b, c], some f, false⟩
      ∧ stdoutDest ⟨[a ++ b, c], some f, false⟩ 1 = OutDest.file f false := by
  intro a b c f hall hab hc habne hcne
  have hmema : ∀ x ∈ a, x ≠ "|" ∧ x ≠ ">" ∧ x ≠ ">>" := fun x hx =>
    hall x (List.mem_append.mpr (Or.inl (List.mem_append.mpr (Or.inl hx))))
  have hmemb : ∀ x ∈ b, x ≠ "|" ∧ x ≠ ">" ∧ x ≠ ">>" := fun x hx =>
    hall x (List.mem_append.mpr (Or.inl (List.mem_append.mpr (Or.inr hx))))
  have hmemc : ∀ x ∈ c, x ≠ "|" ∧ x ≠ ">" ∧ x ≠ ">>" := fun x hx =>
    hall x (List.mem_append.mpr (Or.inr hx))
  constructor
  · unfold parse_pipeline
    rw [if_neg (by simp)]
    have htoks : a ++ [">", f] ++ b ++ ["|"] ++ c
        = a ++ (">" :: f :: (b ++ ("|" :: c))) := by
      simp [List.append_assoc]
    rw [htoks]
    rw [parseLoop_words a (">" :: f :: (b ++ ("|" :: c))) [] [] none hmema
      (by
        simp only [List.length_nil, Nat.zero_add]
        have : a.length ≤ (a ++ b).length := by
          simp [List.length_append]
        replace hab : (a ++ b).length ≤ 255 := hab
        show a.length ≤ 255
        omega)]
    simp only [List.nil_append]
    rw [parseLoop_redir ">" f (b ++ ("|" :: c)) [] a none (Or.inl rfl)]
    rw [if_neg (by simp)]
    have hfalse : (decide ((">" : String) = ">>")) = false := by simp
    rw [show (some (f, decide ((">" : String) = ">>"))) = some (f, false) by rw [hfalse]]
    rw [parseLoop_words b ("|" :: c) [] a (some (f, false)) hmemb
      (by
        replace hab : a.length + b.length ≤ 255 := by
          simpa [List.length_append] using hab
        show a.length + b.length ≤ 255
        omega)]
    rw [parseLoop_pipe c [] (a ++ b) (some (f, false))]
    rw [if_neg (by simpa [List.isEmpty_iff] using habne)]
    rw [if_neg (by show ¬MAX_CMDS ≤ [].length + 1; decide)]
    have hwordsc := parseLoop_words c [] ([] ++ [a ++ b]) [] (some (f, false)) hmemc
      (by
        simp only [List.length_nil, Nat.zero_add]
        replace hc : c.length ≤ 255 := hc
        show c.length ≤ 255
        omega)
    rw [List.append_nil] at hwordsc
    rw [hwordsc, parseLoop_nil]
    rw [if_neg (by simpa [List.isEmpty_iff] using hcne)]
    rfl
  · rfl

/-- Witness for claim C10: `echo > out x | wc` parses with filename `out`
recorded out of the argument vectors and wired to stage 1's stdout. -/
theorem claim_C10_witness :
    parse_pipeline ["echo", ">", "out", "x", "|", "wc"]
        = some ⟨[["echo", "x"], ["wc"]], some "out", false⟩
    ∧ stdoutDest ⟨[["echo", "x"], ["wc"]], some "out", false⟩ 1
        = OutDest.file "out" false := by
  have h := claim_C10_redirection_position ["echo"] ["x"] ["wc"] "out"
    (by decide) (by decide) (by decide) (by decide) (by decide)
  exact h

/-! ### Claim C7: channel bookkeeping of `execute_pipeline`. -/

theorem createdEnds_append (t1 t2 : List PEv) :
    createdEnds (t1 ++ t2) = createdEnds t1 ++ createdEnds t2 := by
  unfold createdEnds
  exact List.flatMap_append t1 t2 _

theorem closedEnds_append (t1 t2 : List PEv) :
    closedEnds (t1 ++ t2) = closedEnds t1 ++ closedEnds t2 := by
  unfold closedEnds
  exact List.filterMap_append t1 t2 _

theorem createdEnds_pipes (l : List Nat) :
    createdEnds (l.map PEv.pipeCreate) = l.flatMap (fun i => [(i, false), (i, true)]) := by
  induction l with
  | nil => rfl
  | cons i t ih =>
    simp only [List.map_cons, List.flatMap_cons, ← ih]
    rfl

theorem createdEnds_forks (l : List Nat) :
    createdEnds (l.map PEv.forkStage) = [] := by
  induction l with
  | nil => rfl
  | cons i t ih =>
    simp only [List.map_cons]
    show createdEnds (PEv.forkStage i :: t.map PEv.forkStage) = []
    unfold createdEnds at ih ⊢
    simp [ih]

theorem createdEnds_closes (l : List Nat) :
    createdEnds (l.flatMap (fun i => [PEv.parentClose i false, PEv.parentClose i true]))
      = [] := by
  induction l with
  | nil => rfl
  | cons i t ih =>
    simp only [List.flatMap_cons]
    rw [createdEnds_append]
    rw [ih]
    rfl

theorem closedEnds_pipes (l : List Nat) :
    closedEnds (l.map PEv.pipeCreate) = [] := by
  induction l with
  | nil => rfl
  | cons i t ih =>
    simp only [List.map_cons]
    unfold closedEnds at ih ⊢
    simp [ih]

theorem closedEnds_forks (l : List Nat) :
    closedEnds (l.map PEv.forkStage) = [] := by
  induction l with
  | nil => rfl
  | cons i t ih =>
    simp only [List.map_cons]
    unfold closedEnds at ih ⊢
    simp [ih]

theorem closedEnds_closes (l : List Nat) :
    closedEnds (l.flatMap (fun i => [PEv.parentClose i false, PEv.parentClose i true]))
      = l.flatMap (fun i => [(i, false), (i, true)]) := by
  induction l with
  | nil => rfl
  | cons i t ih =>
    simp only [List.flatMap_cons]
    rw [closedEnds_append, ih]
    rfl

theorem ab_no_close (n : Nat) :
    ∀ e ∈ ((List.range (n - 1)).map PEv.pipeCreate)
        ++ ((List.range n).map PEv.forkStage), isCloseEv e = false := by
  intro e he
  rcases List.mem_append.mp he with h | h
  · obtain ⟨i, _, rfl⟩ := List.mem_map.mp h
    rfl
  · obtain ⟨i, _, rfl⟩ := List.mem_map.mp h
    rfl

/-- Claim C7: for an `n`-stage pipeline (`n ≥ 1`) on the launch success
path, exactly `n - 1` channels are created; the launching process closes
exactly the descriptors it created (both ends of every channel, so none
stays open in the launcher); and every close happens after every fork
(once a close has occurred, no further fork occurs). -/
theorem claim_C7_channels :
    ∀ n : Nat, 1 ≤ n →
      pipesCreated (parentTrace n) = n - 1
      ∧ createdEnds (parentTrace n) = closedEnds (parentTrace n)
      ∧ (∀ pre suf, parentTrace n = pre ++ suf →
          (∃ e ∈ pre, isCloseEv e = true) → ∀ e ∈ suf, isForkEv e = false) := by
  intro n hn
  refine ⟨?_, ?_, ?_⟩
  · unfold parentTrace pipesCreated
    rw [List.countP_append, List.countP_append]
    have h1 : List.countP isPipeCreate ((List.range (n - 1)).map PEv.pipeCreate)
        = n - 1 := by
      rw [List.countP_map]
      have hcomp : (isPipeCreate ∘ PEv.pipeCreate) = fun _ => true := by
        funext i
        rfl
      rw [hcomp, List.countP_true, List.length_range]
    have h2 : List.countP isPipeCreate ((List.range n).map PEv.forkStage) = 0 :=
      List.countP_eq_zero.mpr (by
        intro e he
        obtain ⟨i, _, rfl⟩ := List.mem_map.mp he
        simp [isPipeCreate])
    have h3 : List.countP isPipeCreate
        ((List.range (n - 1)).flatMap
          (fun i => [PEv.parentClose i false, PEv.parentClose i true])) = 0 :=
      List.countP_eq_zero.mpr (by
        intro e he
        obtain ⟨i, _, hmem⟩ := List.mem_flatMap.mp he
        rcases List.mem_cons.mp hmem with rfl | hmem2
        · simp [isPipeCreate]
        · rcases List.mem_cons.mp hmem2 with rfl | hmem3
          · simp [isPipeCreate]
          · simp at hmem3)
    omega
  · unfold parentTrace
    rw [createdEnds_append, createdEnds_append, closedEnds_append, closedEnds_append,
      createdEnds_pipes, createdEnds_forks, createdEnds_closes,
      closedEnds_pipes, closedEnds_forks, closedEnds_closes]
    simp
  · intro pre suf heq hclose e hesuf
    have heq2 : pre ++ suf
        = (((List.range (n - 1)).map PEv.pipeCreate)
            ++ ((List.range n).map PEv.forkStage))
          ++ ((List.range (n - 1)).flatMap
            (fun i => [PEv.parentClose i false, PEv.parentClose i true])) := by
      have h := heq.symm
      unfold parentTrace at h
      rw [h, List.append_assoc]
    rcases List.append_eq_append_iff.mp heq2 with ⟨w, hw1, _⟩ | ⟨w, _, hw2⟩
    · exfalso
      obtain ⟨ec, hecpre, hecclose⟩ := hclose
      have hecab : ec ∈ ((List.range (n - 1)).map PEv.pipeCreate)
          ++ ((List.range n).map PEv.forkStage) := by
        rw [hw1]
        exact List.mem_append.mpr (Or.inl hecpre)
      rw [ab_no_close n ec hecab] at hecclose
      exact Bool.false_ne_true hecclose
    · have hec : e ∈ (List.range (n - 1)).flatMap
          (fun i => [PEv.parentClose i false, PEv.parentClose i true]) := by
        rw [hw2]
        exact List.mem_append.mpr (Or.inr hesuf)
      obtain ⟨i, _, hmem⟩ := List.mem_flatMap.mp hec
      rcases List.mem_cons.mp hmem with rfl | hmem2
      · rfl
      · rcases List.mem_cons.mp hmem2 with rfl | hmem3
        · rfl
        · simp at hmem3

/-- Witness for claim C7 at `n = 3`: two channels, and the launcher's
created and closed descriptor multisets coincide. -/
theorem claim_C7_witness :
    pipesCreated (parentTrace 3) = 2
    ∧ createdEnds (parentTrace 3) = closedEnds (parentTrace 3) :=
  ⟨(claim_C7_channels 3 (by decide)).1, (claim_C7_channels 3 (by decide)).2.1⟩

/-! ### Claim C8: output redirection semantics. -/

/-- Claim C8: when a pipeline carries an output redirection, the final
stage's standard output is wired to the target file with the recorded
mode; under `>` the flags include truncation, so prior content of an
existing file is discarded; under `>>` the flags include append, so
prior content is preserved and the output lands after it; in both modes
an absent file is created and receives exactly the output. -/
theorem claim_C8_redirection :
    ∀ (pl : Pipeline) (fname : String), pl.outfile = some fname →
      (pl.append = false →
        ∀ (prior out : List Char),
          fileAfterRun (some prior) (redirFlags pl.append) out = out)
      ∧ (pl.append = true →
        ∀ (prior out : List Char),
          fileAfterRun (some prior) (redirFlags pl.append) out = prior ++ out)
      ∧ (∀ out : List Char, fileAfterRun none (redirFlags pl.append) out = out)
      ∧ stdoutDest pl (pl.cmds.length - 1) = OutDest.file fname pl.append := by
  intro pl fname hout
  refine ⟨?_, ?_, ?_, ?_⟩
  · intro hmode prior out
    rw [hmode]
    rfl
  · intro hmode prior out
    rw [hmode]
    rfl
  · intro out
    rfl
  · unfold stdoutDest
    rw [if_pos rfl, hout]

/-- Witness for claim C8: a concrete one-stage pipeline redirected with
`>` discards the prior byte `x`, while the `>>` flags would keep it; the
stage's stdout goes to the file. -/
theorem claim_C8_witness :
    fileAfterRun (some ['x']) (redirFlags false) ['y'] = ['y']
    ∧ fileAfterRun (some ['x']) (redirFlags true) ['y'] = ['x', 'y']
    ∧ stdoutDest ⟨[["cat"]], some "o", false⟩ 0 = OutDest.file "o" false := by
  refine ⟨(claim_C8_redirection ⟨[["cat"]], some "o", false⟩ "o" rfl).1 rfl ['x'] ['y'],
    (claim_C8_redirection ⟨[["cat"]], some "o", true⟩ "o" rfl).2.1 rfl ['x'] ['y'],
    (claim_C8_redirection ⟨[["cat"]], some "o", false⟩ "o" rfl).2.2.2⟩

end P2

end TinyShell
